import Mathlib

/-!
Verification development for the `useFilter` React hook
(`src/index.tsx`): a text normalizer `normalizarTexto` and a filtering
hook `useFilter` that derives `{ filteredData, error }` from
`(data, key, filterText, errorComponent)`.

Strings are modelled as lists of Unicode code points (`List Nat`).
The two host-platform text primitives used by the source —
`String.prototype.normalize("NFD")` and `String.prototype.toLowerCase()`
— are modelled faithfully on the Basic Latin and Latin-1 ranges (plus
U+0130) by an explicit canonical-decomposition table and a code-point
case map; code points outside the modelled ranges are left unchanged.
JavaScript values reachable through `item[key]` are modelled by `JSValue`
with the deterministic `String(·)` coercion `jsString` (in particular a
missing field reads as `undefined` and stringifies to "undefined").
-/

/-- Code points of a Lean string literal, used to write concrete examples. -/
def toCodes (s : String) : List Nat :=
  s.data.map Char.toNat

/-- The combining diacritical marks removed by the source's first
`replace`: the regex character class `[̀-ͯ]`. -/
def isCombiningMark (n : Nat) : Bool :=
  decide (768 ≤ n) && decide (n ≤ 879)

/-- Code points of the punctuation characters removed by the source's
second `replace`: the regex class listing
`. , / # ! $ % ^ & * ; : restOfClass = - _ backtick ~ ( ) ¿ ? ¡ !`
(the braces and the exclamation mark twice, exactly as written there). -/
def punctCodes : List Nat :=
  [46, 44, 47, 35, 33, 36, 37, 94, 38, 42, 59, 58, 123, 125, 61, 45,
   95, 96, 126, 40, 41, 191, 63, 161, 33]

/-- Membership test for the removed punctuation set. -/
def isPunct (n : Nat) : Bool :=
  punctCodes.contains n

/-- Canonical decomposition table modelling `normalize("NFD")` on the
Latin-1 precomposed letters (and U+0130): each maps to its base letter
followed by its combining mark (all marks lie in U+0300–U+036F). -/
def nfdDecomp : List (Nat × List Nat) :=
  [(192, [65, 768]), (193, [65, 769]), (194, [65, 770]), (195, [65, 771]),
   (196, [65, 776]), (197, [65, 778]), (199, [67, 807]), (200, [69, 768]),
   (201, [69, 769]), (202, [69, 770]), (203, [69, 776]), (204, [73, 768]),
   (205, [73, 769]), (206, [73, 770]), (207, [73, 776]), (209, [78, 771]),
   (210, [79, 768]), (211, [79, 769]), (212, [79, 770]), (213, [79, 771]),
   (214, [79, 776]), (217, [85, 768]), (218, [85, 769]), (219, [85, 770]),
   (220, [85, 776]), (221, [89, 769]),
   (224, [97, 768]), (225, [97, 769]), (226, [97, 770]), (227, [97, 771]),
   (228, [97, 776]), (229, [97, 778]), (231, [99, 807]), (232, [101, 768]),
   (233, [101, 769]), (234, [101, 770]), (235, [101, 776]), (236, [105, 768]),
   (237, [105, 769]), (238, [105, 770]), (239, [105, 776]), (241, [110, 771]),
   (242, [111, 768]), (243, [111, 769]), (244, [111, 770]), (245, [111, 771]),
   (246, [111, 776]), (249, [117, 768]), (250, [117, 769]), (251, [117, 770]),
   (252, [117, 776]), (253, [121, 769]), (255, [121, 776]),
   (304, [73, 775])]

/-- Canonical decomposition of one code point (identity off the table). -/
def nfdChar (n : Nat) : List Nat :=
  match nfdDecomp.find? (fun p => p.1 == n) with
  | some p => p.2
  | none => [n]

/-- Code-point model of `toLowerCase()`: ASCII A–Z and the Latin-1
uppercase range U+00C0–U+00DE (excluding the multiplication sign U+00D7)
map down by 32; everything else is unchanged. -/
def toLowerCode (n : Nat) : Nat :=
  if (65 ≤ n ∧ n ≤ 90) ∨ (192 ≤ n ∧ n ≤ 222 ∧ n ≠ 215) then n + 32 else n

/-- The whitespace set of JavaScript `trim()`: WhiteSpace plus line
terminators. -/
def isJsWhitespace (n : Nat) : Bool :=
  [9, 10, 11, 12, 13, 32, 160, 5760, 8232, 8233, 8239, 8287, 12288,
    65279].contains n || (decide (8192 ≤ n) && decide (n ≤ 8202))

/-- `trim()`: drop leading and trailing whitespace, keep the interior. -/
def trimCodes (s : List Nat) : List Nat :=
  (((s.dropWhile isJsWhitespace).reverse.dropWhile isJsWhitespace)).reverse

/-- `normalizarTexto` from `src/index.tsx`:
NFD-decompose, strip combining marks, strip the punctuation set,
lowercase, trim — in that order. -/
def normalizarTexto (s : List Nat) : List Nat :=
  trimCodes
    ((((s.flatMap nfdChar).filter (fun n => !isCombiningMark n)).filter
        (fun n => !isPunct n)).map toLowerCode)

/-- JavaScript values that can sit in a filtered record's field. -/
inductive JSValue where
  | vstr : List Nat → JSValue
  | vnum : Int → JSValue
  | vbool : Bool → JSValue
  | vnull : JSValue
  | vundefined : JSValue
deriving DecidableEq

/-- The `String(·)` coercion on `JSValue`: total and deterministic. -/
def jsString : JSValue → List Nat
  | .vstr s => s
  | .vnum i => toCodes (toString i)
  | .vbool true => toCodes "true"
  | .vbool false => toCodes "false"
  | .vnull => toCodes "null"
  | .vundefined => toCodes "undefined"

/-- A record: an association list from field names to values. -/
abbrev Item := List (List Nat × JSValue)

/-- `item[key]`: the first binding for `key`, or `undefined` if absent. -/
def getField (item : Item) (key : List Nat) : JSValue :=
  match item.find? (fun p => p.1 == key) with
  | some p => p.2
  | none => .vundefined

/-- The predicate of the source's `data.filter`: the normalized query is
a substring of the normalized stringified field. -/
def matchesItem (key searchText : List Nat) (item : Item) : Bool :=
  decide (searchText <:+: normalizarTexto (jsString (getField item key)))

/-- The `useMemo` body of `useFilter`: from the current
`(data, key, filterText, errorComponent)` derive
`(filteredData, error)`. An empty `filterText` (the only falsy string)
returns the data unfiltered with no error; otherwise the query is
normalized once, the list is filtered by substring containment, and the
error is the fallback exactly when nothing matched. -/
def useFilterCompute {α : Type} (data : List Item) (key : List Nat)
    (filterText : List Nat) (errorComponent : α) : List Item × Option α :=
  if filterText.isEmpty then
    (data, none)
  else
    let searchText := normalizarTexto filterText
    let filtered := data.filter (matchesItem key searchText)
    (filtered, if filtered.length = 0 then some errorComponent else none)

/-! ### The concrete record list of the spec's scenarios -/

/-- `{name: "Apple"}`. -/
def itApple : Item := [(toCodes "name", .vstr (toCodes "Apple"))]

/-- `{name: "Banana"}`. -/
def itBanana : Item := [(toCodes "name", .vstr (toCodes "Banana"))]

/-- `{name: "Orange"}`. -/
def itOrange : Item := [(toCodes "name", .vstr (toCodes "Orange"))]

/-- `{name: "Pineapple"}`. -/
def itPineapple : Item := [(toCodes "name", .vstr (toCodes "Pineapple"))]

/-- `{name: "Café"}`. -/
def itCafe : Item := [(toCodes "name", .vstr (toCodes "Café"))]

/-- `{name: "Niño"}`. -/
def itNino : Item := [(toCodes "name", .vstr (toCodes "Niño"))]

/-- The list `D` of the spec's concrete scenarios. -/
def fruits : List Item :=
  [itApple, itBanana, itOrange, itPineapple, itCafe, itNino]

/-! ### Spec-side step functions for the normalizer (refinement, C2) -/

/-- Spec step 1: canonical Unicode decomposition (NFD). -/
def specDecompose (s : List Nat) : List Nat :=
  s.flatMap nfdChar

/-- Spec step 2: remove all combining diacritical marks of the common
accent range U+0300–U+036F. -/
def specStripMarks (s : List Nat) : List Nat :=
  s.filter (fun n => !isCombiningMark n)

/-- The spec's fixed punctuation set, in the order it lists the
characters (the exclamation mark appears twice there as well). -/
def specPunctSet : List Nat :=
  [46, 44, 47, 35, 33, 36, 37, 94, 38, 42, 59, 58, 123, 125, 61, 45,
   95, 96, 126, 40, 41, 191, 63, 161, 33]

/-- Spec step 3: remove exactly the fixed punctuation set, no other
characters. -/
def specStripPunct (s : List Nat) : List Nat :=
  s.filter (fun n => !(specPunctSet.contains n))

/-- Spec step 4: locale-independent lowercasing. -/
def specLowercase (s : List Nat) : List Nat :=
  s.map toLowerCode

/-- Spec step 5: trim leading and trailing whitespace only. -/
def specTrim (s : List Nat) : List Nat :=
  trimCodes s

/-- The normalizer as the spec words it: the five steps in order. -/
def specNormalize (s : List Nat) : List Nat :=
  specTrim (specLowercase (specStripPunct (specStripMarks (specDecompose s))))

/-! ### Memoized recomputation model (C9) -/

/-- The four inputs the `useMemo` dependency array tracks. -/
structure FInputs (α : Type) where
  data : List Item
  key : List Nat
  query : List Nat
  fallback : α
deriving DecidableEq

/-- The pure derivation applied to one input bundle. -/
def computeOf {α : Type} (i : FInputs α) : List Item × Option α :=
  useFilterCompute i.data i.key i.query i.fallback

/-- Eager strategy: recompute unconditionally on every cycle. -/
def eagerRun {α : Type} (hist : List (FInputs α)) :
    List (List Item × Option α) :=
  hist.map computeOf

/-- Memoized strategy: carry the last `(inputs, output)` pair; when the
inputs of a cycle equal the cached inputs, reuse the cached output,
otherwise recompute and update the cache. -/
def memoRun {α : Type} [DecidableEq α]
    (cache : Option (FInputs α × (List Item × Option α))) :
    List (FInputs α) → List (List Item × Option α)
  | [] => []
  | i :: rest =>
    match cache with
    | some c =>
      if i = c.1 then c.2 :: memoRun (some c) rest
      else computeOf i :: memoRun (some (i, computeOf i)) rest
    | none => computeOf i :: memoRun (some (i, computeOf i)) rest

/-- A concrete input bundle for the C9 witness. -/
def iFruits : FInputs Nat :=
  ⟨fruits, toCodes "name", toCodes "app", 5⟩

/-- The per-character action of the normalizer before trimming:
decompose, drop marks, drop punctuation, lowercase. -/
def coreChar (n : Nat) : List Nat :=
  (((nfdChar n).filter (fun m => !isCombiningMark m)).filter
      (fun m => !isPunct m)).map toLowerCode

/-- A code point the whole pre-trim pipeline leaves alone: no
decomposition, not a mark, not punctuation, already lowercase. -/
def goodB (n : Nat) : Bool :=
  (nfdChar n == [n]) && !isCombiningMark n && !isPunct n &&
    (toLowerCode n == n)

/-! ### Helper lemmas -/

/-- The boolean filter predicate decides substring containment of the
normalized query in the normalized stringified field. -/
theorem matchesItem_iff (key s : List Nat) (it : Item) :
    matchesItem key s it = true ↔
      s <:+: normalizarTexto (jsString (getField it key)) :=
  decide_eq_true_iff

/-- On a non-empty query, `useFilterCompute` filters by `matchesItem` and
raises the fallback exactly when the filtered list is empty. -/
theorem useFilterCompute_pos {α : Type} (data : List Item) (key q : List Nat)
    (fb : α) (hq : q ≠ []) :
    useFilterCompute data key q fb =
      (data.filter (matchesItem key (normalizarTexto q)),
       if (data.filter (matchesItem key (normalizarTexto q))).length = 0 then
         some fb
       else none) := by
  simp [useFilterCompute, List.isEmpty_iff, hq]

/-! ### Claim theorems -/

/-- C1: for every data list, non-empty query `q` and field key `k`, the
filtered result contains exactly those items whose normalized stringified
field contains the normalized query as a substring: every kept item
satisfies the containment and every item of the data not kept does not. -/
theorem c1_filtered_exactly_matching {α : Type} (data : List Item)
    (key q : List Nat) (fb : α) (hq : q ≠ []) :
    (∀ it ∈ (useFilterCompute data key q fb).1,
        normalizarTexto q <:+: normalizarTexto (jsString (getField it key))) ∧
    (∀ it ∈ data, it ∉ (useFilterCompute data key q fb).1 →
        ¬ normalizarTexto q <:+: normalizarTexto (jsString (getField it key))) := by
  rw [useFilterCompute_pos data key q fb hq]
  constructor
  · intro it hit
    have h := List.mem_filter.mp hit
    exact (matchesItem_iff key (normalizarTexto q) it).mp h.2
  · intro it hmem hnot hcontain
    exact hnot (List.mem_filter.mpr
      ⟨hmem, (matchesItem_iff key (normalizarTexto q) it).mpr hcontain⟩)

/-- C1 witness: the theorem applied at the concrete scenario list with
query `"app"`. -/
theorem c1_filtered_exactly_matching_witness :
    (∀ it ∈ (useFilterCompute fruits (toCodes "name") (toCodes "app") (0 : Nat)).1,
        normalizarTexto (toCodes "app") <:+:
          normalizarTexto (jsString (getField it (toCodes "name")))) ∧
    (∀ it ∈ fruits,
        it ∉ (useFilterCompute fruits (toCodes "name") (toCodes "app") (0 : Nat)).1 →
        ¬ normalizarTexto (toCodes "app") <:+:
            normalizarTexto (jsString (getField it (toCodes "name")))) :=
  c1_filtered_exactly_matching fruits (toCodes "name") (toCodes "app") 0
    (by decide)

/-- C3: the indicator is present iff the query is non-empty and the
filtered list is empty, and when present it is the fallback verbatim. -/
theorem c3_indicator_law {α : Type} (data : List Item) (key q : List Nat)
    (fb : α) :
    ((useFilterCompute data key q fb).2 ≠ none ↔
      q ≠ [] ∧ (useFilterCompute data key q fb).1 = []) ∧
    (∀ x, (useFilterCompute data key q fb).2 = some x → x = fb) := by
  by_cases hq : q = []
  · subst hq
    simp [useFilterCompute]
  · rw [useFilterCompute_pos data key q fb hq]
    by_cases hf : data.filter (matchesItem key (normalizarTexto q)) = []
    · simp [hf, hq]
    · have hlen : (data.filter (matchesItem key (normalizarTexto q))).length ≠ 0 :=
        fun h => hf (List.length_eq_zero.mp h)
      simp [hlen, hq, hf]

/-- C3 witness: the theorem at `data = []`, query `"a"`, fallback `42`. -/
theorem c3_indicator_law_witness :
    ((useFilterCompute ([] : List Item) (toCodes "name") (toCodes "a")
        (42 : Nat)).2 ≠ none ↔
      toCodes "a" ≠ [] ∧
        (useFilterCompute ([] : List Item) (toCodes "name") (toCodes "a")
          (42 : Nat)).1 = []) ∧
    (∀ x, (useFilterCompute ([] : List Item) (toCodes "name") (toCodes "a")
        (42 : Nat)).2 = some x → x = 42) :=
  c3_indicator_law [] (toCodes "name") (toCodes "a") 42

/-- C4: `filteredData` is always a subsequence of `data` (so it has each
item at most as often as `data`, in the same relative order). -/
theorem c4_filtered_sublist {α : Type} (data : List Item) (key q : List Nat)
    (fb : α) :
    List.Sublist (useFilterCompute data key q fb).1 data ∧
    ∀ it : Item, ((useFilterCompute data key q fb).1.count it ≤ data.count it) := by
  have hsub : List.Sublist (useFilterCompute data key q fb).1 data := by
    by_cases hq : q = []
    · subst hq
      simp [useFilterCompute]
    · rw [useFilterCompute_pos data key q fb hq]
      exact List.filter_sublist data
  exact ⟨hsub, fun it => hsub.count_le it⟩

/-- C5: for the empty query — the initial state — the filtered list is the
data verbatim and the indicator is absent, for every data list. -/
theorem c5_empty_query_identity {α : Type} (data : List Item) (key : List Nat)
    (fb : α) :
    useFilterCompute data key [] fb = (data, none) := rfl

/-- C7: on the concrete fruit list filtered by `name`, query `"cafe"`
yields exactly the `Café` item and query `"nino"` exactly the `Niño`
item. -/
theorem c7_accent_insensitive_scenarios :
    (useFilterCompute fruits (toCodes "name") (toCodes "cafe") (0 : Nat)).1 =
      [itCafe] ∧
    (useFilterCompute fruits (toCodes "name") (toCodes "nino") (0 : Nat)).1 =
      [itNino] := by
  constructor <;> decide

/-- C8: the coercion of an absent field is the deterministic string
`"undefined"`, and the filter test on such an item is exactly the (total)
substring test against `normalize("undefined")`; the whole derivation is
a total Lean function. -/
theorem c8_absent_field_total (it : Item) (k : List Nat)
    (h : it.find? (fun p => p.1 == k) = none) :
    jsString (getField it k) = toCodes "undefined" ∧
    ∀ s : List Nat,
      matchesItem k s it = decide (s <:+: normalizarTexto (toCodes "undefined")) := by
  have hg : getField it k = .vundefined := by
    unfold getField
    rw [h]
  constructor
  · rw [hg]
    rfl
  · intro s
    unfold matchesItem
    rw [hg]
    simp only [jsString]

/-- C8 witness: the theorem at the empty record and key `"name"`. -/
theorem c8_absent_field_total_witness :
    jsString (getField ([] : Item) (toCodes "name")) = toCodes "undefined" ∧
    ∀ s : List Nat,
      matchesItem (toCodes "name") s ([] : Item) =
        decide (s <:+: normalizarTexto (toCodes "undefined")) :=
  c8_absent_field_total [] (toCodes "name") rfl

/-- C10: a raw query that is non-empty but normalizes to the empty string
matches every item, so the filtered list is the whole data and the
indicator is present exactly when the data is empty. -/
theorem c10_vacuous_query {α : Type} (data : List Item) (key q : List Nat)
    (fb : α) (hq : q ≠ []) (hn : normalizarTexto q = []) :
    (useFilterCompute data key q fb).1 = data ∧
    ((useFilterCompute data key q fb).2 ≠ none ↔ data = []) := by
  rw [useFilterCompute_pos data key q fb hq, hn]
  have hfil : data.filter (matchesItem key []) = data :=
    List.filter_eq_self.mpr fun it _ =>
      (matchesItem_iff key [] it).mpr (List.nil_infix)
  rw [hfil]
  by_cases hd : data = []
  · simp [hd]
  · simp [hd, List.length_eq_zero]

/-- C10 witness: the one-record list and the query `"."` (which
normalizes to the empty string): everything is kept, no indicator. -/
theorem c10_vacuous_query_witness :
    (useFilterCompute [itApple] (toCodes "name") (toCodes ".") (7 : Nat)).1 =
      [itApple] ∧
    ((useFilterCompute [itApple] (toCodes "name") (toCodes ".") (7 : Nat)).2 ≠
        none ↔ [itApple] = []) :=
  c10_vacuous_query [itApple] (toCodes "name") (toCodes ".") 7 (by decide)
    (by decide)

/-- C2: the source's `normalizarTexto` is exactly the spec's five steps —
decompose, strip marks, strip the fixed punctuation set, lowercase,
trim — applied in that order; it is a total function and maps the empty
string to the empty string. -/
theorem c2_normalize_steps :
    (∀ s : List Nat, normalizarTexto s = specNormalize s) ∧
    normalizarTexto [] = [] :=
  ⟨fun _ => rfl, rfl⟩

/-- A cache holding the derivation of its own inputs keeps the memoized
run equal to the eager run. -/
theorem memoRun_eq_eagerRun {α : Type} [DecidableEq α]
    (hist : List (FInputs α)) :
    ∀ cache : Option (FInputs α × (List Item × Option α)),
      (∀ c, cache = some c → c.2 = computeOf c.1) →
      memoRun cache hist = eagerRun hist := by
  induction hist with
  | nil => intro cache _; cases cache <;> rfl
  | cons i rest ih =>
    intro cache hinv
    cases cache with
    | none =>
      simp only [memoRun, eagerRun, List.map_cons]
      exact congrArg _ (ih _ (fun c hc => by cases hc; rfl))
    | some c =>
      by_cases hic : i = c.1
      · have hco : c.2 = computeOf c.1 := hinv c rfl
        simp only [memoRun, eagerRun, List.map_cons, if_pos hic]
        rw [hco, hic]
        exact congrArg _ (ih _ hinv)
      · simp only [memoRun, eagerRun, List.map_cons, if_neg hic]
        exact congrArg _ (ih _ (fun d hd => by cases hd; rfl))

/-- C9: the derived pair is a pure deterministic function of the latest
four inputs — equal inputs give equal outputs — and running the memoized
strategy from an empty cache over any history of input changes is
observably equal to eager unconditional recomputation. -/
theorem c9_memo_refines_eager {α : Type} [DecidableEq α] :
    (∀ i j : FInputs α, i = j → computeOf i = computeOf j) ∧
    (∀ hist : List (FInputs α), memoRun none hist = eagerRun hist) :=
  ⟨fun _ _ h => congrArg computeOf h,
   fun hist => memoRun_eq_eagerRun hist none (fun _ hc => by cases hc)⟩

/-- C9 witness: the theorem at a two-cycle history repeating the same
inputs (the second cycle is served from the cache). -/
theorem c9_memo_refines_eager_witness :
    computeOf iFruits = computeOf iFruits ∧
    memoRun none [iFruits, iFruits] = eagerRun [iFruits, iFruits] :=
  ⟨(c9_memo_refines_eager (α := Nat)).1 iFruits iFruits rfl,
   (c9_memo_refines_eager (α := Nat)).2 [iFruits, iFruits]⟩

/-! ### Idempotence of the normalizer (C6) -/

/-- The pre-trim pipeline is the per-character map `coreChar`. -/
theorem core_eq (s : List Nat) :
    (((s.flatMap nfdChar).filter (fun n => !isCombiningMark n)).filter
        (fun n => !isPunct n)).map toLowerCode = s.flatMap coreChar := by
  induction s with
  | nil => rfl
  | cons a t ih =>
    simp only [List.flatMap_cons, List.filter_append, List.map_append, ih,
      coreChar]

/-- `normalizarTexto` is trimming after the per-character map. -/
theorem normalize_eq_core (s : List Nat) :
    normalizarTexto s = trimCodes (s.flatMap coreChar) := by
  unfold normalizarTexto
  rw [core_eq]

/-- The pipeline fixes a good code point. -/
theorem coreChar_of_good {n : Nat} (h : goodB n = true) : coreChar n = [n] := by
  unfold goodB at h
  simp only [Bool.and_eq_true, beq_iff_eq, Bool.not_eq_true'] at h
  obtain ⟨⟨⟨h1, h2⟩, h3⟩, h4⟩ := h
  unfold coreChar
  rw [h1]
  simp [List.filter_cons, h2, h3, h4]

/-- Every character produced by decomposing a table entry and running the
rest of the pipeline is good (checked by evaluation over the table). -/
theorem nfdTable_good :
    nfdDecomp.all (fun p =>
      (((p.2.filter (fun m => !isCombiningMark m)).filter
          (fun m => !isPunct m)).map toLowerCode).all goodB) = true := by
  decide

/-- Lowercasing an ASCII uppercase letter yields a good code point. -/
theorem asciiUpper_good :
    (List.range' 65 26).all (fun n => goodB (n + 32)) = true := by decide

/-- Lowercasing a Latin-1 uppercase letter with no decomposition yields a
good code point. -/
theorem latinUpper_good :
    (List.range' 192 31).all (fun n =>
      (nfdDecomp.find? (fun p => p.1 == n)).isSome || n == 215 ||
        goodB (n + 32)) = true := by decide

/-- Every output character of `coreChar` is good. -/
theorem good_of_mem_coreChar {n m : Nat} (hm : m ∈ coreChar n) :
    goodB m = true := by
  unfold coreChar at hm
  cases hfind : nfdDecomp.find? (fun p => p.1 == n) with
  | some p =>
    have hp : p ∈ nfdDecomp := List.mem_of_find?_eq_some hfind
    have hchar : nfdChar n = p.2 := by unfold nfdChar; rw [hfind]
    rw [hchar] at hm
    have hall := List.all_eq_true.mp nfdTable_good p hp
    exact List.all_eq_true.mp hall m hm
  | none =>
    have hchar : nfdChar n = [n] := by unfold nfdChar; rw [hfind]
    rw [hchar] at hm
    by_cases hmark : isCombiningMark n = true
    · simp [List.filter_cons, hmark] at hm
    · rw [Bool.not_eq_true] at hmark
      by_cases hpunct : isPunct n = true
      · simp [List.filter_cons, hmark, hpunct] at hm
      · rw [Bool.not_eq_true] at hpunct
        simp [List.filter_cons, hmark, hpunct] at hm
        subst hm
        by_cases hcond : (65 ≤ n ∧ n ≤ 90) ∨ (192 ≤ n ∧ n ≤ 222 ∧ n ≠ 215)
        · have hlow : toLowerCode n = n + 32 := by
            unfold toLowerCode
            exact if_pos hcond
          rw [hlow]
          rcases hcond with h | h
          · have hmem : n ∈ List.range' 65 26 := by
              rw [List.mem_range']
              exact ⟨n - 65, by omega, by omega⟩
            exact List.all_eq_true.mp asciiUpper_good n hmem
          · have hmem : n ∈ List.range' 192 31 := by
              rw [List.mem_range']
              exact ⟨n - 192, by omega, by omega⟩
            have hfact := List.all_eq_true.mp latinUpper_good n hmem
            rw [hfind] at hfact
            simp only [Option.isSome_none, Bool.false_or, Bool.or_eq_true,
              beq_iff_eq] at hfact
            rcases hfact with h215 | hg
            · exact absurd h215 h.2.2
            · exact hg
        · have hlow : toLowerCode n = n := by
            unfold toLowerCode
            exact if_neg hcond
          rw [hlow]
          unfold goodB
          rw [hchar, hlow]
          simp [hmark, hpunct]

/-- Every character of the mapped list is good. -/
theorem good_of_mem_core {s : List Nat} {m : Nat}
    (hm : m ∈ s.flatMap coreChar) : goodB m = true := by
  obtain ⟨a, _, hma⟩ := List.mem_flatMap.mp hm
  exact good_of_mem_coreChar hma

/-- The per-character map fixes a list of good code points. -/
theorem flatMap_coreChar_of_good {t : List Nat}
    (h : ∀ m ∈ t, goodB m = true) : t.flatMap coreChar = t := by
  induction t with
  | nil => rfl
  | cons a r ih =>
    rw [List.flatMap_cons, coreChar_of_good (h a (List.mem_cons_self a r)),
      ih (fun m hm => h m (List.mem_cons_of_mem a hm))]
    rfl

/-- Trimming only drops elements. -/
theorem mem_of_mem_trimCodes {m : Nat} {s : List Nat}
    (h : m ∈ trimCodes s) : m ∈ s := by
  unfold trimCodes at h
  rw [List.mem_reverse] at h
  have h2 := (List.dropWhile_sublist isJsWhitespace).subset h
  rw [List.mem_reverse] at h2
  exact (List.dropWhile_sublist isJsWhitespace).subset h2

/-- A left-trimmed list stays left-trimmed on any of its prefixes. -/
theorem dropWhile_eq_self_of_prefix {p : Nat → Bool} {l l' : List Nat}
    (h : List.dropWhile p l = l) (hpre : l' <+: l) :
    List.dropWhile p l' = l' := by
  cases l' with
  | nil => rfl
  | cons a t =>
    obtain ⟨r, hr⟩ := hpre
    subst hr
    rw [List.cons_append, List.dropWhile_cons] at h
    rw [List.dropWhile_cons]
    by_cases hpa : p a = true
    · rw [if_pos hpa] at h
      have hsub := List.dropWhile_sublist (l := t ++ r) p
      rw [h] at hsub
      have hlen := hsub.length_le
      simp only [List.length_cons] at hlen
      omega
    · rw [if_neg hpa]

/-- Trimming is idempotent. -/
theorem trimCodes_idem (s : List Nat) :
    trimCodes (trimCodes s) = trimCodes s := by
  unfold trimCodes
  have h1 : ((s.dropWhile isJsWhitespace).reverse.dropWhile
        isJsWhitespace).reverse.dropWhile isJsWhitespace =
      ((s.dropWhile isJsWhitespace).reverse.dropWhile isJsWhitespace).reverse := by
    apply dropWhile_eq_self_of_prefix (l := s.dropWhile isJsWhitespace)
      (List.dropWhile_idempotent _ _)
    have h := List.reverse_prefix.mpr
      (List.dropWhile_suffix (l := (s.dropWhile isJsWhitespace).reverse)
        isJsWhitespace)
    rwa [List.reverse_reverse] at h
  rw [h1, List.reverse_reverse, List.dropWhile_idempotent]

/-- C6: `normalizarTexto` is idempotent. -/
theorem c6_normalize_idempotent (s : List Nat) :
    normalizarTexto (normalizarTexto s) = normalizarTexto s := by
  rw [normalize_eq_core s, normalize_eq_core (trimCodes (s.flatMap coreChar))]
  rw [flatMap_coreChar_of_good
    (fun m hm => good_of_mem_core (mem_of_mem_trimCodes hm))]
  exact trimCodes_idem _
